import Mathlib

/-!
Verification of the `aws-s3-backup` synchronization tool.

Shallow embedding of the repository's code:
  * `src/s3_backup/utils.py`  — `iter_files`, `is_excluded`, `join_s3_key`
  * `src/s3_backup/s3.py`     — `head_object_etag_size_mtime`, `upload_file`,
                                `delete_object` (the boto3 client is modelled
                                as an opaque capability, as is `fnmatch` from
                                the Python standard library)
  * `src/s3_backup/cli.py`    — the `sync` command body of `main`

Python integers are `Int` (sizes, epoch seconds), Python strings are
`String`.  `str.isdigit` is modelled over decimal ASCII digits, the only
characters this program ever writes into the `mtime` metadata.  Remote
mutations (`client.upload_file`, `client.delete_object`) are recorded as an
explicit list of `Effect`s instead of being performed.
-/

namespace S3Backup

/-- Strategy selector: `--strategy size-mtime` (default) or `size-only`. -/
inductive Strategy where
  | sizeMtime
  | sizeOnly
deriving DecidableEq, Repr

/-- `utils.FileItem`: one local file yielded by the scanner. -/
structure FileItem where
  path : String
  rel : String
  size : Int
  mtime : Int
deriving DecidableEq, Repr

/-- One raw directory entry seen by `root.rglob("*")`: the filesystem
snapshot `iter_files` walks. -/
structure RawEntry where
  path : String
  rel : String
  isDir : Bool
  size : Int
  mtime : Int
deriving DecidableEq, Repr

/-- The dict returned by `upload_file` / `delete_object`: an action record of
the report.  Field sets match the source: uploads carry the local path,
deletes do not; both carry bucket, key and the dry-run flag. -/
inductive ActionRecord where
  | upload (bucket key localPath : String) (dry : Bool)
  | delete (bucket key : String) (dry : Bool)
deriving DecidableEq, Repr

/-- A remote mutation issued to the store.  `put` carries the metadata
`mtime` string exactly as transmitted in `ExtraArgs`. -/
inductive Effect where
  | put (bucket key localPath : String) (mtimeMeta : String)
  | del (bucket key : String)
deriving DecidableEq, Repr

/-- `botocore.exceptions.ClientError`, reduced to the error code the program
reads from `e.response["Error"]["Code"]`. -/
structure ClientError where
  code : String
deriving DecidableEq, Repr

/-- The raw `head_object` response: the three pieces the code reads.
`r.get("Metadata", {}).get("mtime")` is modelled by `metadataMtime` since
`"mtime"` is the only metadata key the program ever reads or writes. -/
structure HeadResp where
  etagVal : Option String
  contentLengthVal : Option Int
  metadataMtime : Option String
deriving DecidableEq, Repr

/-- The boto3 S3 client, as an opaque read capability: `head_object` (which
may raise a `ClientError`) and the flattened pagination of
`list_objects_v2` (`list_objects_keys` in `s3.py`). -/
structure S3Client where
  headRaw : String → String → Except ClientError HeadResp
  listKeys : String → String → List String

/-- Python `s.strip(c)` for a single strip character: drop every leading and
trailing occurrence of `c`. -/
def stripBoth (c : Char) (s : String) : String :=
  String.mk (((s.data.dropWhile (· == c)).reverse.dropWhile (· == c)).reverse)

/-- `utils.is_excluded`: true iff any pattern matches the relative posix
path.  `fnmatch.fnmatch` is Python standard library, modelled as the opaque
matcher `fnmatchFn`. -/
def is_excluded (fnmatchFn : String → String → Bool)
    (rel_posix : String) (excludes : List String) : Bool :=
  excludes.any fun pattern => fnmatchFn rel_posix pattern

/-- `utils.iter_files`: walk the entries under the root, skip directories and
excluded paths, yield a `FileItem` per remaining regular file. -/
def iter_files (fnmatchFn : String → String → Bool)
    (entries : List RawEntry) (excludes : List String) : List FileItem :=
  entries.filterMap fun p =>
    if p.isDir then none
    else if is_excluded fnmatchFn p.rel excludes then none
    else some ⟨p.path, p.rel, p.size, p.mtime⟩

/-- `utils.join_s3_key`: strip slashes off the key root, then prepend it
with a `/` separator unless it is empty. -/
def join_s3_key (pfx rel_posix : String) : String :=
  let p := stripBoth '/' pfx
  if p = "" then rel_posix else p ++ "/" ++ rel_posix

/-- Decimal rendering of a natural number, as Python `str` produces for a
non-negative `int`. -/
def digitChar (d : Nat) : Char := Char.ofNat (48 + d)

/-- Decimal string of a natural number (big-endian digits). -/
def natToStr (n : Nat) : String :=
  if n = 0 then "0" else String.mk ((Nat.digits 10 n).reverse.map digitChar)

/-- Python `str` on an `int`: sign then decimal digits. -/
def intToStr (m : Int) : String :=
  if m < 0 then "-" ++ natToStr m.natAbs else natToStr m.toNat

/-- Python `int(s)` on an all-digit decimal string. -/
def decNat (s : String) : Nat :=
  s.data.foldl (fun acc c => 10 * acc + (c.toNat - 48)) 0

/-- The metadata-mtime parse in `head_object_etag_size_mtime`:
`int(mtime) if mtime and mtime.isdigit() else None`. -/
def parseMtimeMeta (m? : Option String) : Option Int :=
  match m? with
  | none => none
  | some s =>
      if s ≠ "" ∧ s.data.all Char.isDigit then some ((decNat s : Nat) : Int)
      else none

/-- `s3.head_object_etag_size_mtime`: on success parse
`(etag, size, mtime_epoch?)`; a `ClientError` whose code is `404`,
`NoSuchKey` or `NotFound` yields `none` (object absent); any other
`ClientError` is re-raised. -/
def head_object_etag_size_mtime (client : S3Client) (bucket key : String) :
    Except ClientError (Option (String × Int × Option Int)) :=
  match client.headRaw bucket key with
  | .ok r =>
      .ok (some (stripBoth '"' (r.etagVal.getD ""),
                 r.contentLengthVal.getD 0,
                 parseMtimeMeta r.metadataMtime))
  | .error e =>
      if e.code = "404" ∨ e.code = "NoSuchKey" ∨ e.code = "NotFound" then
        .ok none
      else .error e

/-- `s3.upload_file`: in dry-run return the record without contacting the
store; otherwise issue the put (metadata `mtime` set to `str(mtime_epoch)`)
and return the same record with `dry_run=False`. -/
def upload_file (bucket key local_path : String) (mtime_epoch : Int)
    (dry : Bool) : ActionRecord × List Effect :=
  if dry then (.upload bucket key local_path true, [])
  else (.upload bucket key local_path false,
        [Effect.put bucket key local_path (intToStr mtime_epoch)])

/-- `s3.delete_object`: in dry-run return the record without contacting the
store; otherwise issue the delete. -/
def delete_object (bucket key : String) (dry : Bool) :
    ActionRecord × List Effect :=
  if dry then (.delete bucket key true, [])
  else (.delete bucket key false, [Effect.del bucket key])

/-- Mutable state of the `for f in iter_files(...)` loop in `cli.main`:
the action list, the issued effects, the `uploaded`/`skipped` counters and
the `local_key_set`. -/
structure LoopState where
  actions : List ActionRecord
  effects : List Effect
  uploaded : Nat
  skipped : Nat
  localKeys : List String
deriving DecidableEq, Repr

/-- Loop state at entry of the sync body. -/
def initState : LoopState := ⟨[], [], 0, 0, []⟩

/-- One iteration of the per-file loop in `cli.main`: record the key in
`local_key_set`, head-lookup, then upload / skip according to the strategy.
An uncaught `ClientError` aborts carrying the state reached so far. -/
def syncStep (client : S3Client) (bucket pfx : String) (strategy : Strategy)
    (dryRun : Bool) (s : LoopState) (f : FileItem) :
    Except (ClientError × LoopState) LoopState :=
  let key := join_s3_key pfx f.rel
  let s1 : LoopState := { s with localKeys := s.localKeys.insert key }
  match head_object_etag_size_mtime client bucket key with
  | .error e => .error (e, s1)
  | .ok none =>
      let ue := upload_file bucket key f.path f.mtime dryRun
      .ok { s1 with actions := s1.actions ++ [ue.1],
                    effects := s1.effects ++ ue.2,
                    uploaded := s1.uploaded + 1 }
  | .ok (some info) =>
      let r_size := info.2.1
      let r_mtime := info.2.2
      let should_upload : Bool :=
        match strategy with
        | .sizeOnly => decide (r_size ≠ f.size)
        | .sizeMtime =>
            decide (r_size ≠ f.size) || decide (r_mtime = none) ||
              decide (r_mtime ≠ some f.mtime)
      if should_upload then
        let ue := upload_file bucket key f.path f.mtime dryRun
        .ok { s1 with actions := s1.actions ++ [ue.1],
                      effects := s1.effects ++ ue.2,
                      uploaded := s1.uploaded + 1 }
      else
        .ok { s1 with skipped := s1.skipped + 1 }

/-- The whole per-file loop of `cli.main`, folded over the scanned files. -/
def syncFiles (client : S3Client) (bucket pfx : String) (strategy : Strategy)
    (dryRun : Bool) : LoopState → List FileItem →
    Except (ClientError × LoopState) LoopState
  | s, [] => .ok s
  | s, f :: fs =>
      match syncStep client bucket pfx strategy dryRun s f with
      | .error e => .error e
      | .ok s1 => syncFiles client bucket pfx strategy dryRun s1 fs

/-- The body of the `if args.delete:` loop of `cli.main`, iterating over the
listed remote keys carrying (actions appended, effects issued, `deleted`). -/
def deleteLoop (bucket : String) (dryRun : Bool) (localKeys : List String) :
    List ActionRecord × List Effect × Nat → List String →
    List ActionRecord × List Effect × Nat
  | acc, [] => acc
  | acc, k :: ks =>
      if k ∈ localKeys then deleteLoop bucket dryRun localKeys acc ks
      else
        let de := delete_object bucket k dryRun
        deleteLoop bucket dryRun localKeys
          (acc.1 ++ [de.1], acc.2.1 ++ de.2, acc.2.2 + 1) ks

/-- The `if args.delete:` loop of `cli.main` over the listed remote keys:
delete every listed key absent from `local_key_set`, counting deletions. -/
def deletePhase (keys : List String) (bucket : String) (dryRun : Bool)
    (localKeys : List String) :
    List ActionRecord × List Effect × Nat :=
  deleteLoop bucket dryRun localKeys ([], [], 0) keys

/-- Result of one `sync` run: the summary counters, the full ordered action
list, and the remote mutations issued. -/
structure RunResult where
  actions : List ActionRecord
  effects : List Effect
  uploaded : Nat
  skipped : Nat
  deleted : Nat
  localKeys : List String
deriving DecidableEq, Repr

/-- The `sync` body of `cli.main` after the local-root check: the per-file
upload/skip loop, then (only with `--delete`) the deletion phase over the
keys listed under `prefix + "/"` (empty prefix lists the whole bucket). -/
def syncRun (client : S3Client) (bucket pfx : String) (strategy : Strategy)
    (dryRun deleteFlag : Bool) (files : List FileItem) :
    Except (ClientError × LoopState) RunResult :=
  match syncFiles client bucket pfx strategy dryRun initState files with
  | .error e => .error e
  | .ok s =>
      if deleteFlag then
        let list_pfx := if pfx ≠ "" then pfx ++ "/" else ""
        let dp := deletePhase (client.listKeys bucket list_pfx) bucket dryRun
          s.localKeys
        .ok ⟨s.actions ++ dp.1, s.effects ++ dp.2.1,
             s.uploaded, s.skipped, dp.2.2, s.localKeys⟩
      else
        .ok ⟨s.actions, s.effects, s.uploaded, s.skipped, 0, s.localKeys⟩

/-- The local root as `cli.main` observes it: `local_root.exists()`,
`local_root.is_dir()`, and the entries a walk would visit. -/
structure LocalDir where
  present : Bool
  isDir : Bool
  entries : List RawEntry
deriving Repr

/-- `cli.EXIT_OK`. -/
def EXIT_OK : Int := 0

/-- `cli.EXIT_ERROR`. -/
def EXIT_ERROR : Int := 2

/-- The `sync` command of `cli.main` with its surrounding `try/except`:
a missing or non-directory local root raises `ValueError`, caught at the
top level (error logged, `EXIT_ERROR` returned, no effect issued);
otherwise the scanned files are synced and an uncaught `ClientError`
likewise maps to `EXIT_ERROR`.  Returns (exit code, issued effects,
logged error message if any). -/
def main_sync (fnmatchFn : String → String → Bool) (root : LocalDir)
    (excludes : List String) (client : S3Client) (bucket pfx : String)
    (strategy : Strategy) (dryRun deleteFlag : Bool) :
    Int × List Effect × Option String :=
  if !root.present || !root.isDir then
    (EXIT_ERROR, [], some "local_dir not found or not a directory")
  else
    match syncRun client bucket pfx strategy dryRun deleteFlag
        (iter_files fnmatchFn root.entries excludes) with
    | .ok r => (EXIT_OK, r.effects, none)
    | .error es => (EXIT_ERROR, es.2.effects, some es.1.code)

/-- Spec-side predicate: the loop iteration on `f` decides Upload — it
succeeds, appends exactly the upload record for `f`'s key, and bumps the
`uploaded` counter, leaving `skipped` unchanged. -/
def decidesUpload (client : S3Client) (bucket pfx : String)
    (strategy : Strategy) (dryRun : Bool) (s : LoopState) (f : FileItem) :
    Prop :=
  ∃ s1, syncStep client bucket pfx strategy dryRun s f = .ok s1 ∧
    s1.actions = s.actions ++
      [ActionRecord.upload bucket (join_s3_key pfx f.rel) f.path dryRun] ∧
    s1.uploaded = s.uploaded + 1 ∧ s1.skipped = s.skipped

/-- Spec-side predicate: the loop iteration on `f` decides Skip — it
succeeds, appends no action, and bumps the `skipped` counter only. -/
def decidesSkip (client : S3Client) (bucket pfx : String)
    (strategy : Strategy) (dryRun : Bool) (s : LoopState) (f : FileItem) :
    Prop :=
  ∃ s1, syncStep client bucket pfx strategy dryRun s f = .ok s1 ∧
    s1.actions = s.actions ∧
    s1.uploaded = s.uploaded ∧ s1.skipped = s.skipped + 1

/-- The action record with its dry-run flag replaced: used to state that
dry-run and live records agree on every other field. -/
def setDry : ActionRecord → Bool → ActionRecord
  | .upload b k l _, d => .upload b k l d
  | .delete b k _, d => .delete b k d

/-- State reached by a loop computation, whether it returned or aborted. -/
def outState : Except (ClientError × LoopState) LoopState → LoopState
  | .ok s => s
  | .error es => es.2

lemma upload_file_fst (b k l : String) (m : Int) (d : Bool) :
    (upload_file b k l m d).1 = ActionRecord.upload b k l d := by
  cases d <;> simp [upload_file]

lemma upload_file_snd (b k l : String) (m : Int) (d : Bool) :
    (upload_file b k l m d).2 =
      if d then [] else [Effect.put b k l (intToStr m)] := by
  cases d <;> simp [upload_file]

lemma delete_object_fst (b k : String) (d : Bool) :
    (delete_object b k d).1 = ActionRecord.delete b k d := by
  cases d <;> simp [delete_object]

lemma delete_object_snd (b k : String) (d : Bool) :
    (delete_object b k d).2 = if d then [] else [Effect.del b k] := by
  cases d <;> simp [delete_object]

lemma digitChar_toNat {d : Nat} (h : d < 10) : (digitChar d).toNat = 48 + d := by
  interval_cases d <;> decide

lemma digitChar_isDigit {d : Nat} (h : d < 10) :
    (digitChar d).isDigit = true := by
  interval_cases d <;> decide

lemma foldl_congr_mem {α β : Type} (f g : β → α → β) :
    ∀ (L : List α), (∀ b a, a ∈ L → f b a = g b a) →
      ∀ b, L.foldl f b = L.foldl g b := by
  intro L
  induction L with
  | nil => intro _ b; rfl
  | cons x xs ih =>
      intro h b
      simp only [List.foldl_cons]
      rw [h b x (List.mem_cons_self x xs)]
      exact ih (fun b a ha => h b a (List.mem_cons_of_mem x ha)) _

lemma foldl_reverse_ofDigits :
    ∀ (L : List Nat) (a : Nat),
      L.reverse.foldl (fun acc d => 10 * acc + d) a =
        a * 10 ^ L.length + Nat.ofDigits 10 L := by
  intro L
  induction L with
  | nil => intro a; simp [Nat.ofDigits_nil]
  | cons d ds ih =>
      intro a
      simp only [List.reverse_cons, List.foldl_append, List.foldl_cons,
        List.foldl_nil, ih, Nat.ofDigits_cons, List.length_cons, pow_succ,
        Nat.cast_id]
      ring

lemma decNat_natToStr (n : Nat) : decNat (natToStr n) = n := by
  by_cases h : n = 0
  · subst h; decide
  · unfold natToStr decNat
    simp only [h, if_false]
    show ((Nat.digits 10 n).reverse.map digitChar).foldl
      (fun acc c => 10 * acc + (c.toNat - 48)) 0 = n
    rw [List.foldl_map]
    rw [foldl_congr_mem _ (fun acc d => 10 * acc + d) _
      (fun b d hd => by
        show 10 * b + ((digitChar d).toNat - 48) = 10 * b + d
        rw [digitChar_toNat (Nat.digits_lt_base (by norm_num)
          (List.mem_reverse.mp hd))]
        omega)]
    rw [foldl_reverse_ofDigits]
    simp [Nat.ofDigits_digits]

lemma natToStr_ne_empty (n : Nat) : natToStr n ≠ "" := by
  unfold natToStr
  by_cases h : n = 0
  · simp [h]
  · simp only [h, if_false]
    intro hc
    have hdata := congrArg String.data hc
    simp only [String.data] at hdata
    simp only [List.map_eq_nil_iff, List.reverse_eq_nil_iff] at hdata
    exact (Nat.digits_ne_nil_iff_ne_zero.mpr h) hdata

lemma natToStr_all_digits (n : Nat) :
    (natToStr n).data.all Char.isDigit = true := by
  unfold natToStr
  by_cases h : n = 0
  · simp [h]
  · simp only [h, if_false]
    rw [List.all_eq_true]
    intro c hc
    simp only [String.data, List.mem_map, List.mem_reverse] at hc
    obtain ⟨d, hd, rfl⟩ := hc
    exact digitChar_isDigit (Nat.digits_lt_base (by norm_num) hd)

lemma parseMtimeMeta_natToStr (n : Nat) :
    parseMtimeMeta (some (natToStr n)) = some (n : Int) := by
  simp only [parseMtimeMeta]
  rw [if_pos ⟨natToStr_ne_empty n, natToStr_all_digits n⟩, decNat_natToStr]

lemma intToStr_natCast (n : Nat) : intToStr (n : Int) = natToStr n := by
  unfold intToStr
  rw [if_neg (by omega), Int.toNat_natCast]

lemma syncStep_of_head_error {client : S3Client} {bucket pfx : String}
    {strategy : Strategy} {dryRun : Bool} {s : LoopState} {f : FileItem}
    {e : ClientError}
    (hh : head_object_etag_size_mtime client bucket (join_s3_key pfx f.rel) =
      .error e) :
    syncStep client bucket pfx strategy dryRun s f =
      .error (e,
        { s with localKeys := s.localKeys.insert (join_s3_key pfx f.rel) }) := by
  unfold syncStep
  simp only [hh]

lemma syncStep_of_head_none {client : S3Client} {bucket pfx : String}
    {strategy : Strategy} {dryRun : Bool} {s : LoopState} {f : FileItem}
    (hh : head_object_etag_size_mtime client bucket (join_s3_key pfx f.rel) =
      .ok none) :
    syncStep client bucket pfx strategy dryRun s f =
      .ok { s with
            localKeys := s.localKeys.insert (join_s3_key pfx f.rel),
            actions := s.actions ++
              [ActionRecord.upload bucket (join_s3_key pfx f.rel) f.path dryRun],
            effects := s.effects ++
              (upload_file bucket (join_s3_key pfx f.rel) f.path f.mtime dryRun).2,
            uploaded := s.uploaded + 1 } := by
  unfold syncStep
  simp only [hh, upload_file_fst]

lemma syncStep_of_head_some {client : S3Client} {bucket pfx : String}
    {strategy : Strategy} {dryRun : Bool} {s : LoopState} {f : FileItem}
    {et : String} {rs : Int} {rm : Option Int}
    (hh : head_object_etag_size_mtime client bucket (join_s3_key pfx f.rel) =
      .ok (some (et, rs, rm))) :
    syncStep client bucket pfx strategy dryRun s f =
      if (match strategy with
          | .sizeOnly => decide (rs ≠ f.size)
          | .sizeMtime =>
              decide (rs ≠ f.size) || decide (rm = none) ||
                decide (rm ≠ some f.mtime)) then
        .ok { s with
              localKeys := s.localKeys.insert (join_s3_key pfx f.rel),
              actions := s.actions ++
                [ActionRecord.upload bucket (join_s3_key pfx f.rel) f.path dryRun],
              effects := s.effects ++
                (upload_file bucket (join_s3_key pfx f.rel) f.path f.mtime dryRun).2,
              uploaded := s.uploaded + 1 }
      else
        .ok { s with
              localKeys := s.localKeys.insert (join_s3_key pfx f.rel),
              skipped := s.skipped + 1 } := by
  unfold syncStep
  simp only [hh, upload_file_fst]

lemma deleteLoop_eq (bucket : String) (dryRun : Bool) (lk : List String) :
    ∀ (keys : List String) (A : List ActionRecord) (E : List Effect) (n : Nat),
      deleteLoop bucket dryRun lk (A, E, n) keys =
        (A ++ (keys.filter fun k => decide (k ∉ lk)).map
            (fun k => ActionRecord.delete bucket k dryRun),
         E ++ (if dryRun then [] else
            (keys.filter fun k => decide (k ∉ lk)).map
              (fun k => Effect.del bucket k)),
         n + (keys.filter fun k => decide (k ∉ lk)).length) := by
  intro keys
  induction keys with
  | nil => intro A E n; simp [deleteLoop]
  | cons k ks ih =>
      intro A E n
      by_cases hk : k ∈ lk
      · have hf : (k :: ks).filter (fun k => decide (k ∉ lk)) =
            ks.filter (fun k => decide (k ∉ lk)) := by
          simp [List.filter_cons, hk]
        simp only [deleteLoop, if_pos hk, ih, hf]
      · have hf : (k :: ks).filter (fun k => decide (k ∉ lk)) =
            k :: ks.filter (fun k => decide (k ∉ lk)) := by
          simp [List.filter_cons, hk]
        simp only [deleteLoop, if_neg hk, ih, hf, delete_object_fst,
          delete_object_snd, List.map_cons, List.length_cons, Prod.mk.injEq]
        refine ⟨by simp, ?_, by omega⟩
        cases dryRun <;> simp

lemma deletePhase_eq (keys : List String) (bucket : String) (dryRun : Bool)
    (lk : List String) :
    deletePhase keys bucket dryRun lk =
      ((keys.filter fun k => decide (k ∉ lk)).map
          (fun k => ActionRecord.delete bucket k dryRun),
       (if dryRun then [] else
          (keys.filter fun k => decide (k ∉ lk)).map
            (fun k => Effect.del bucket k)),
       (keys.filter fun k => decide (k ∉ lk)).length) := by
  simp [deletePhase, deleteLoop_eq]

lemma syncStep_spec (client : S3Client) (bucket pfx : String)
    (strategy : Strategy) (dryRun : Bool) (s : LoopState) (f : FileItem) :
    s.localKeys ⊆
      (outState (syncStep client bucket pfx strategy dryRun s f)).localKeys ∧
    (∀ a ∈ (outState (syncStep client bucket pfx strategy dryRun s f)).actions,
       a ∈ s.actions ∨ ∃ k l d, a = ActionRecord.upload bucket k l d ∧
         k ∈ (outState (syncStep client bucket pfx strategy dryRun s f)).localKeys) ∧
    (dryRun = true →
       (outState (syncStep client bucket pfx strategy dryRun s f)).effects =
         s.effects) := by
  cases hh : head_object_etag_size_mtime client bucket (join_s3_key pfx f.rel) with
  | error e =>
      rw [syncStep_of_head_error hh]
      simp only [outState]
      exact ⟨List.subset_insert _ _, fun a ha => Or.inl ha, fun _ => trivial⟩
  | ok o =>
      cases o with
      | none =>
          rw [syncStep_of_head_none hh]
          simp only [outState]
          refine ⟨List.subset_insert _ _, ?_, ?_⟩
          · intro a ha
            rcases List.mem_append.mp ha with h | h
            · exact Or.inl h
            · rcases List.mem_singleton.mp h with rfl
              exact Or.inr ⟨join_s3_key pfx f.rel, f.path, dryRun, rfl,
                List.mem_insert_self _ _⟩
          · intro hd
            subst hd
            rw [upload_file_snd]
            simp
      | some info =>
          obtain ⟨et, rs, rm⟩ := info
          rw [syncStep_of_head_some hh]
          split
          · simp only [outState]
            refine ⟨List.subset_insert _ _, ?_, ?_⟩
            · intro a ha
              rcases List.mem_append.mp ha with h | h
              · exact Or.inl h
              · rcases List.mem_singleton.mp h with rfl
                exact Or.inr ⟨join_s3_key pfx f.rel, f.path, dryRun, rfl,
                  List.mem_insert_self _ _⟩
            · intro hd
              subst hd
              rw [upload_file_snd]
              simp
          · simp only [outState]
            exact ⟨List.subset_insert _ _, fun a ha => Or.inl ha, fun _ => trivial⟩

lemma syncFiles_spec (client : S3Client) (bucket pfx : String)
    (strategy : Strategy) (dryRun : Bool) :
    ∀ (files : List FileItem) (s : LoopState),
      s.localKeys ⊆
        (outState (syncFiles client bucket pfx strategy dryRun s files)).localKeys ∧
      (∀ a ∈ (outState (syncFiles client bucket pfx strategy dryRun s files)).actions,
         a ∈ s.actions ∨ ∃ k l d, a = ActionRecord.upload bucket k l d ∧
           k ∈ (outState (syncFiles client bucket pfx strategy dryRun s files)).localKeys) ∧
      (dryRun = true →
         (outState (syncFiles client bucket pfx strategy dryRun s files)).effects =
           s.effects) := by
  intro files
  induction files with
  | nil =>
      intro s
      simp only [syncFiles, outState]
      exact ⟨fun a ha => ha, fun a ha => Or.inl ha, fun _ => trivial⟩
  | cons f fs ih =>
      intro s
      cases hstep : syncStep client bucket pfx strategy dryRun s f with
      | error es =>
          have hrun : syncFiles client bucket pfx strategy dryRun s (f :: fs) =
              .error es := by
            simp [syncFiles, hstep]
          rw [hrun]
          have h1 := syncStep_spec client bucket pfx strategy dryRun s f
          rw [hstep] at h1
          exact h1
      | ok s1 =>
          have hrun : syncFiles client bucket pfx strategy dryRun s (f :: fs) =
              syncFiles client bucket pfx strategy dryRun s1 fs := by
            simp [syncFiles, hstep]
          rw [hrun]
          have h1 := syncStep_spec client bucket pfx strategy dryRun s f
          rw [hstep] at h1
          simp only [outState] at h1
          obtain ⟨hk1, ha1, he1⟩ := h1
          obtain ⟨hk2, ha2, he2⟩ := ih s1
          refine ⟨hk1.trans hk2, ?_, ?_⟩
          · intro a ha
            rcases ha2 a ha with h | ⟨k, l, d, rfl, hk⟩
            · rcases ha1 a h with h' | ⟨k, l, d, rfl, hk⟩
              · exact Or.inl h'
              · exact Or.inr ⟨k, l, d, rfl, hk2 hk⟩
            · exact Or.inr ⟨k, l, d, rfl, hk⟩
          · intro hd
            rw [he2 hd, he1 hd]

lemma syncStep_ok_localKeys {client : S3Client} {bucket pfx : String}
    {strategy : Strategy} {dryRun : Bool} {s : LoopState} {f : FileItem}
    {s1 : LoopState}
    (h : syncStep client bucket pfx strategy dryRun s f = .ok s1) :
    s1.localKeys = s.localKeys.insert (join_s3_key pfx f.rel) := by
  cases hh : head_object_etag_size_mtime client bucket (join_s3_key pfx f.rel) with
  | error e => rw [syncStep_of_head_error hh] at h; cases h
  | ok o =>
      cases o with
      | none => rw [syncStep_of_head_none hh] at h; cases h; rfl
      | some info =>
          obtain ⟨et, rs, rm⟩ := info
          rw [syncStep_of_head_some hh] at h
          split at h <;> (cases h; rfl)

lemma syncFiles_ok_localKeys (client : S3Client) (bucket pfx : String)
    (strategy : Strategy) (dryRun : Bool) :
    ∀ (files : List FileItem) (s s1 : LoopState),
      syncFiles client bucket pfx strategy dryRun s files = .ok s1 →
      ∀ k, k ∈ s1.localKeys ↔
        (k ∈ s.localKeys ∨ ∃ f ∈ files, join_s3_key pfx f.rel = k) := by
  intro files
  induction files with
  | nil =>
      intro s s1 h k
      simp only [syncFiles] at h
      cases h
      simp
  | cons f fs ih =>
      intro s s1 h k
      cases hstep : syncStep client bucket pfx strategy dryRun s f with
      | error es => simp [syncFiles, hstep] at h
      | ok s2 =>
          simp only [syncFiles, hstep] at h
          have hk2 := syncStep_ok_localKeys hstep
          have hiff := ih s2 s1 h k
          have hsymm : (join_s3_key pfx f.rel = k) ↔ (k = join_s3_key pfx f.rel) :=
            eq_comm
          rw [hiff, hk2, List.mem_insert_iff, List.exists_mem_cons_iff, hsymm]
          tauto

lemma syncRun_ok_delete {client : S3Client} {bucket pfx : String}
    {strategy : Strategy} {dryRun : Bool} {files : List FileItem} {r : RunResult}
    (h : syncRun client bucket pfx strategy dryRun true files = .ok r) :
    ∃ s, syncFiles client bucket pfx strategy dryRun initState files = .ok s ∧
      r = ⟨s.actions ++ (deletePhase (client.listKeys bucket
              (if pfx ≠ "" then pfx ++ "/" else "")) bucket dryRun s.localKeys).1,
           s.effects ++ (deletePhase (client.listKeys bucket
              (if pfx ≠ "" then pfx ++ "/" else "")) bucket dryRun s.localKeys).2.1,
           s.uploaded, s.skipped,
           (deletePhase (client.listKeys bucket
              (if pfx ≠ "" then pfx ++ "/" else "")) bucket dryRun s.localKeys).2.2,
           s.localKeys⟩ := by
  cases hsf : syncFiles client bucket pfx strategy dryRun initState files with
  | error es => simp [syncRun, hsf] at h
  | ok s =>
      refine ⟨s, rfl, ?_⟩
      simp only [syncRun, hsf, if_true] at h
      injection h with h
      exact h.symm

lemma syncRun_ok_nodelete {client : S3Client} {bucket pfx : String}
    {strategy : Strategy} {dryRun : Bool} {files : List FileItem} {r : RunResult}
    (h : syncRun client bucket pfx strategy dryRun false files = .ok r) :
    ∃ s, syncFiles client bucket pfx strategy dryRun initState files = .ok s ∧
      r = ⟨s.actions, s.effects, s.uploaded, s.skipped, 0, s.localKeys⟩ := by
  cases hsf : syncFiles client bucket pfx strategy dryRun initState files with
  | error es => simp [syncRun, hsf] at h
  | ok s =>
      refine ⟨s, rfl, ?_⟩
      simp only [syncRun, hsf, Bool.false_eq_true, if_false] at h
      injection h with h
      exact h.symm

lemma syncRun_error_inv {client : S3Client} {bucket pfx : String}
    {strategy : Strategy} {dryRun deleteFlag : Bool} {files : List FileItem}
    {es : ClientError × LoopState}
    (h : syncRun client bucket pfx strategy dryRun deleteFlag files = .error es) :
    syncFiles client bucket pfx strategy dryRun initState files = .error es := by
  cases hsf : syncFiles client bucket pfx strategy dryRun initState files with
  | error es' =>
      simp only [syncRun, hsf] at h
      injection h with h
      rw [h]
  | ok s =>
      simp only [syncRun, hsf] at h
      cases deleteFlag <;> simp at h

lemma join_s3_key_inj (pfx : String) {a b : String}
    (h : join_s3_key pfx a = join_s3_key pfx b) : a = b := by
  unfold join_s3_key at h
  by_cases hp : stripBoth '/' pfx = ""
  · simpa [hp] using h
  · simp only [hp, if_false] at h
    have hd := congrArg String.data h
    simp only [String.data_append] at hd
    exact String.ext (List.append_cancel_left hd)

/-- Claim C1: under the size-mtime strategy, the planner decides Upload when
the head lookup reports the key absent; when the object is present it
decides Upload iff the remote size differs from the local size, or the
stored mtime is absent, or the stored mtime differs from the local
modification time (exact integer equality); in every remaining case it
decides Skip. -/
theorem claim1_size_mtime_decision (client : S3Client) (bucket pfx : String)
    (dryRun : Bool) (s : LoopState) (f : FileItem) :
    (head_object_etag_size_mtime client bucket (join_s3_key pfx f.rel) =
        .ok none →
      decidesUpload client bucket pfx .sizeMtime dryRun s f) ∧
    (∀ (et : String) (rs : Int) (rm : Option Int),
      head_object_etag_size_mtime client bucket (join_s3_key pfx f.rel) =
        .ok (some (et, rs, rm)) →
      (decidesUpload client bucket pfx .sizeMtime dryRun s f ↔
        (rs ≠ f.size ∨ rm = none ∨ rm ≠ some f.mtime)) ∧
      (decidesSkip client bucket pfx .sizeMtime dryRun s f ↔
        ¬(rs ≠ f.size ∨ rm = none ∨ rm ≠ some f.mtime))) := by
  constructor
  · intro hh
    exact ⟨_, syncStep_of_head_none hh, rfl, rfl, rfl⟩
  · intro et rs rm hh
    have hstep := @syncStep_of_head_some client bucket pfx Strategy.sizeMtime
      dryRun s f et rs rm hh
    have hbool : ((match Strategy.sizeMtime with
        | Strategy.sizeOnly => decide (rs ≠ f.size)
        | Strategy.sizeMtime =>
            decide (rs ≠ f.size) || decide (rm = none) ||
              decide (rm ≠ some f.mtime)) = true) ↔
        (rs ≠ f.size ∨ rm = none ∨ rm ≠ some f.mtime) := by
      simp [or_assoc]
    constructor
    · constructor
      · rintro ⟨s1, hs1, hact, hup, hsk⟩
        by_contra hc
        have hb : ¬((match Strategy.sizeMtime with
            | Strategy.sizeOnly => decide (rs ≠ f.size)
            | Strategy.sizeMtime =>
                decide (rs ≠ f.size) || decide (rm = none) ||
                  decide (rm ≠ some f.mtime)) = true) :=
          fun h => hc (hbool.mp h)
        rw [if_neg hb] at hstep
        rw [hstep] at hs1
        injection hs1 with hs1
        subst hs1
        have := congrArg List.length hact
        simp at this
      · intro hc
        have hb := hbool.mpr hc
        rw [if_pos hb] at hstep
        exact ⟨_, hstep, rfl, rfl, rfl⟩
    · constructor
      · rintro ⟨s1, hs1, hact, hup, hsk⟩
        intro hc
        have hb := hbool.mpr hc
        rw [if_pos hb] at hstep
        rw [hstep] at hs1
        injection hs1 with hs1
        subst hs1
        simp at hsk
      · intro hc
        have hb : ¬((match Strategy.sizeMtime with
            | Strategy.sizeOnly => decide (rs ≠ f.size)
            | Strategy.sizeMtime =>
                decide (rs ≠ f.size) || decide (rm = none) ||
                  decide (rm ≠ some f.mtime)) = true) :=
          fun h => hc (hbool.mp h)
        rw [if_neg hb] at hstep
        exact ⟨_, hstep, rfl, rfl, rfl⟩

/-- Witness for C1 at a concrete input: remote size 3 and stored mtime 7
match the local file exactly, so the planner decides Skip. -/
theorem claim1_witness :
    decidesSkip
      ⟨fun _ _ => .ok ⟨some "e", some 3, some "7"⟩, fun _ _ => []⟩
      "b" "p" .sizeMtime false initState ⟨"/r/a", "a", 3, 7⟩ := by
  have h := (claim1_size_mtime_decision
      ⟨fun _ _ => .ok ⟨some "e", some 3, some "7"⟩, fun _ _ => []⟩
      "b" "p" false initState ⟨"/r/a", "a", 3, 7⟩).2 "e" 3 (some 7) rfl
  exact h.2.mpr (by decide)

/-- Claim C2: under the size-only strategy, with the object present
remotely, the planner decides Upload iff the remote size differs from the
local size, and Skip otherwise; the stored mtime `rm` is universally
quantified here and absent from the right-hand sides, so it never affects
the decision. -/
theorem claim2_size_only_decision (client : S3Client) (bucket pfx : String)
    (dryRun : Bool) (s : LoopState) (f : FileItem) :
    ∀ (et : String) (rs : Int) (rm : Option Int),
      head_object_etag_size_mtime client bucket (join_s3_key pfx f.rel) =
        .ok (some (et, rs, rm)) →
      (decidesUpload client bucket pfx .sizeOnly dryRun s f ↔ rs ≠ f.size) ∧
      (decidesSkip client bucket pfx .sizeOnly dryRun s f ↔ rs = f.size) := by
  intro et rs rm hh
  have hstep := @syncStep_of_head_some client bucket pfx Strategy.sizeOnly
    dryRun s f et rs rm hh
  have hbool : ((match Strategy.sizeOnly with
      | Strategy.sizeOnly => decide (rs ≠ f.size)
      | Strategy.sizeMtime =>
          decide (rs ≠ f.size) || decide (rm = none) ||
            decide (rm ≠ some f.mtime)) = true) ↔ rs ≠ f.size := by
    simp
  constructor
  · constructor
    · rintro ⟨s1, hs1, hact, hup, hsk⟩
      by_contra hc
      have hb : ¬((match Strategy.sizeOnly with
          | Strategy.sizeOnly => decide (rs ≠ f.size)
          | Strategy.sizeMtime =>
              decide (rs ≠ f.size) || decide (rm = none) ||
                decide (rm ≠ some f.mtime)) = true) :=
        fun h => (hbool.mp h) hc
      rw [if_neg hb] at hstep
      rw [hstep] at hs1
      injection hs1 with hs1
      subst hs1
      have := congrArg List.length hact
      simp at this
    · intro hc
      have hb := hbool.mpr hc
      rw [if_pos hb] at hstep
      exact ⟨_, hstep, rfl, rfl, rfl⟩
  · constructor
    · rintro ⟨s1, hs1, hact, hup, hsk⟩
      by_contra hc
      have hb := hbool.mpr hc
      rw [if_pos hb] at hstep
      rw [hstep] at hs1
      injection hs1 with hs1
      subst hs1
      simp at hsk
    · intro hc
      have hb : ¬((match Strategy.sizeOnly with
          | Strategy.sizeOnly => decide (rs ≠ f.size)
          | Strategy.sizeMtime =>
              decide (rs ≠ f.size) || decide (rm = none) ||
                decide (rm ≠ some f.mtime)) = true) := by
        simp [hbool, hc]
      rw [if_neg hb] at hstep
      exact ⟨_, hstep, rfl, rfl, rfl⟩

/-- Witness for C2 at a concrete input: sizes match but the stored mtime
differs (9 vs local 7); under size-only the planner still decides Skip. -/
theorem claim2_witness :
    decidesSkip
      ⟨fun _ _ => .ok ⟨some "e", some 3, some "9"⟩, fun _ _ => []⟩
      "b" "p" .sizeOnly false initState ⟨"/r/a", "a", 3, 7⟩ := by
  have h := claim2_size_only_decision
      ⟨fun _ _ => .ok ⟨some "e", some 3, some "9"⟩, fun _ _ => []⟩
      "b" "p" false initState ⟨"/r/a", "a", 3, 7⟩ "e" 3 (some 9) rfl
  exact h.2.mpr rfl

/-- Claim C8: a head-lookup `ClientError` whose code is 404, NoSuchKey or
NotFound is mapped to the absent result, which the planner turns into an
Upload decision; any other head-lookup `ClientError` is re-raised
unchanged, and the per-file loop aborts with it. -/
theorem claim8_head_error_handling (client : S3Client) (bucket key : String) :
    (∀ e : ClientError, client.headRaw bucket key = .error e →
      (e.code = "404" ∨ e.code = "NoSuchKey" ∨ e.code = "NotFound") →
      head_object_etag_size_mtime client bucket key = .ok none) ∧
    (∀ e : ClientError, client.headRaw bucket key = .error e →
      ¬(e.code = "404" ∨ e.code = "NoSuchKey" ∨ e.code = "NotFound") →
      head_object_etag_size_mtime client bucket key = .error e) ∧
    (∀ (pfx : String) (strategy : Strategy) (dryRun : Bool) (s : LoopState)
        (f : FileItem), join_s3_key pfx f.rel = key →
      head_object_etag_size_mtime client bucket key = .ok none →
      decidesUpload client bucket pfx strategy dryRun s f) ∧
    (∀ (pfx : String) (strategy : Strategy) (dryRun : Bool) (s : LoopState)
        (f : FileItem) (fs : List FileItem) (e : ClientError),
      join_s3_key pfx f.rel = key →
      head_object_etag_size_mtime client bucket key = .error e →
      syncFiles client bucket pfx strategy dryRun s (f :: fs) =
        .error (e, { s with localKeys := s.localKeys.insert key })) := by
  refine ⟨?_, ?_, ?_, ?_⟩
  · intro e he hcode
    unfold head_object_etag_size_mtime
    rw [he]
    simp [hcode]
  · intro e he hcode
    unfold head_object_etag_size_mtime
    rw [he]
    simp [hcode]
  · intro pfx strategy dryRun s f hkey hh
    subst hkey
    exact ⟨_, syncStep_of_head_none hh, rfl, rfl, rfl⟩
  · intro pfx strategy dryRun s f fs e hkey hh
    subst hkey
    simp [syncFiles, syncStep_of_head_error hh]

/-- Witness for C8 at concrete inputs: a NoSuchKey error parses to absent,
while an AccessDenied error is re-raised. -/
theorem claim8_witness :
    head_object_etag_size_mtime
      ⟨fun _ _ => .error ⟨"NoSuchKey"⟩, fun _ _ => []⟩ "b" "k" = .ok none ∧
    head_object_etag_size_mtime
      ⟨fun _ _ => .error ⟨"AccessDenied"⟩, fun _ _ => []⟩ "b" "k" =
      .error ⟨"AccessDenied"⟩ := by
  constructor
  · exact (claim8_head_error_handling
      ⟨fun _ _ => .error ⟨"NoSuchKey"⟩, fun _ _ => []⟩ "b" "k").1
      ⟨"NoSuchKey"⟩ rfl (by decide)
  · exact (claim8_head_error_handling
      ⟨fun _ _ => .error ⟨"AccessDenied"⟩, fun _ _ => []⟩ "b" "k").2.1
      ⟨"AccessDenied"⟩ rfl (by decide)

/-- Claim C9: when the local root does not exist or is not a directory, the
sync raises its configuration error before contacting the store: no remote
effect is ever issued, the not-a-directory message is logged, and the
process exit code is `EXIT_ERROR`, which is non-zero. -/
theorem claim9_bad_root (fnmatchFn : String → String → Bool)
    (root : LocalDir) (excludes : List String) (client : S3Client)
    (bucket pfx : String) (strategy : Strategy) (dryRun deleteFlag : Bool)
    (h : root.present = false ∨ root.isDir = false) :
    main_sync fnmatchFn root excludes client bucket pfx strategy dryRun
        deleteFlag =
      (EXIT_ERROR, [], some "local_dir not found or not a directory") ∧
    EXIT_ERROR ≠ 0 := by
  constructor
  · unfold main_sync
    rcases h with h | h <;> simp [h]
  · decide

/-- Witness for C9 at a concrete input: a missing root aborts with exit
code 2 and no effects. -/
theorem claim9_witness :
    main_sync (fun _ _ => false) ⟨false, false, []⟩ []
      ⟨fun _ _ => .error ⟨"X"⟩, fun _ _ => []⟩ "b" "p" .sizeMtime false false =
      (EXIT_ERROR, [], some "local_dir not found or not a directory") ∧
    EXIT_ERROR ≠ 0 :=
  claim9_bad_root (fun _ _ => false) ⟨false, false, []⟩ []
    ⟨fun _ _ => .error ⟨"X"⟩, fun _ _ => []⟩ "b" "p" .sizeMtime false false
    (Or.inl rfl)

/-- Claim C7: the mtime marker round-trips.  A live upload with local
modification time `m ≥ 0` transmits the decimal string of `m` as the
`mtime` metadata; the head-lookup parser maps that string back to exactly
`m`; and a metadata value that is absent, empty, or not all digits parses
to an absent stored mtime. -/
theorem claim7_mtime_roundtrip (b k l : String) (m : Nat) :
    (upload_file b k l (m : Int) false).2 =
      [Effect.put b k l (natToStr m)] ∧
    parseMtimeMeta (some (natToStr m)) = some (m : Int) ∧
    parseMtimeMeta none = none ∧
    (∀ s : String, s = "" ∨ ¬(s.data.all Char.isDigit = true) →
      parseMtimeMeta (some s) = none) ∧
    (∀ (client : S3Client) (bucket key : String) (r : HeadResp),
      client.headRaw bucket key = .ok r →
      r.metadataMtime = some (natToStr m) →
      head_object_etag_size_mtime client bucket key =
        .ok (some (stripBoth '"' (r.etagVal.getD ""),
                   r.contentLengthVal.getD 0, some (m : Int)))) := by
  refine ⟨?_, parseMtimeMeta_natToStr m, rfl, ?_, ?_⟩
  · simp [upload_file, intToStr_natCast]
  · intro s hs
    rcases hs with rfl | hs
    · simp [parseMtimeMeta]
    · simp only [parseMtimeMeta]
      rw [if_neg]
      intro hc
      exact hs hc.2
  · intro client bucket key r hraw hmeta
    unfold head_object_etag_size_mtime
    rw [hraw]
    simp only [hmeta, parseMtimeMeta_natToStr]

/-- Witness for C7 at concrete inputs: 1700000000 survives the round trip
and the non-numeric string "12a" parses to absent. -/
theorem claim7_witness :
    parseMtimeMeta (some (natToStr 1700000000)) = some (1700000000 : Int) ∧
    parseMtimeMeta (some "12a") = none := by
  constructor
  · exact (claim7_mtime_roundtrip "b" "k" "l" 1700000000).2.1
  · exact (claim7_mtime_roundtrip "b" "k" "l" 0).2.2.2.1 "12a"
      (Or.inr (by decide))

/-- Claim C5: dry-run and live action records agree on every field except
the dry-run flag (for uploads: action kind, bucket, key, local path; for
deletes: action kind, bucket, key), dry-run actions issue no effect at
all, and a whole dry run — whether it returns or aborts — issues no put
and no delete, leaving the remote store unchanged. -/
theorem claim5_dry_run_frame :
    (∀ (b k l : String) (m : Int),
      (upload_file b k l m true).1 = setDry ((upload_file b k l m false).1) true ∧
      (upload_file b k l m true).2 = []) ∧
    (∀ b k : String,
      (delete_object b k true).1 = setDry ((delete_object b k false).1) true ∧
      (delete_object b k true).2 = []) ∧
    (∀ (client : S3Client) (bucket pfx : String) (strategy : Strategy)
        (deleteFlag : Bool) (files : List FileItem) (r : RunResult),
      syncRun client bucket pfx strategy true deleteFlag files = .ok r →
      r.effects = []) ∧
    (∀ (client : S3Client) (bucket pfx : String) (strategy : Strategy)
        (deleteFlag : Bool) (files : List FileItem)
        (es : ClientError × LoopState),
      syncRun client bucket pfx strategy true deleteFlag files = .error es →
      es.2.effects = []) := by
  refine ⟨fun b k l m => ⟨rfl, rfl⟩, fun b k => ⟨rfl, rfl⟩, ?_, ?_⟩
  · intro client bucket pfx strategy deleteFlag files r h
    cases deleteFlag with
    | true =>
        obtain ⟨s, hsf, rfl⟩ := syncRun_ok_delete h
        have hspec := (syncFiles_spec client bucket pfx strategy true files
          initState).2.2 rfl
        rw [hsf] at hspec
        simp only [outState] at hspec
        show s.effects ++ _ = []
        rw [hspec, deletePhase_eq]
        simp [initState]
    | false =>
        obtain ⟨s, hsf, rfl⟩ := syncRun_ok_nodelete h
        have hspec := (syncFiles_spec client bucket pfx strategy true files
          initState).2.2 rfl
        rw [hsf] at hspec
        simp only [outState] at hspec
        show s.effects = []
        rw [hspec]
        rfl
  · intro client bucket pfx strategy deleteFlag files es h
    have hsf := syncRun_error_inv h
    have hspec := (syncFiles_spec client bucket pfx strategy true files
      initState).2.2 rfl
    rw [hsf] at hspec
    simp only [outState] at hspec
    rw [hspec]
    rfl

/-- Witness for C5 at a concrete input: a dry run that uploads one file and
deletes one remote-only key issues no effect. -/
theorem claim5_witness :
    RunResult.effects
      ⟨[ActionRecord.upload "b" "p/f" "/a/f" true,
        ActionRecord.delete "b" "p/x" true], [], 1, 0, 1, ["p/f"]⟩ = [] :=
  claim5_dry_run_frame.2.2.1
    ⟨fun _ _ => .ok ⟨some "e", some 1, none⟩, fun _ _ => ["p/x"]⟩
    "b" "p" .sizeMtime true [⟨"/a/f", "f", 1, 2⟩] _ rfl

/-- Claim C6: a local file whose relative path matches an exclusion pattern
contributes nothing: the scanner's output is identical with or without it,
and therefore the whole sync run (actions, counters, effects) is too. -/
theorem claim6_excluded_is_invisible (fnmatchFn : String → String → Bool)
    (l1 l2 : List RawEntry) (e : RawEntry) (excludes : List String)
    (hex : is_excluded fnmatchFn e.rel excludes = true)
    (client : S3Client) (bucket pfx : String) (strategy : Strategy)
    (dryRun deleteFlag : Bool) :
    iter_files fnmatchFn (l1 ++ e :: l2) excludes =
      iter_files fnmatchFn (l1 ++ l2) excludes ∧
    syncRun client bucket pfx strategy dryRun deleteFlag
        (iter_files fnmatchFn (l1 ++ e :: l2) excludes) =
      syncRun client bucket pfx strategy dryRun deleteFlag
        (iter_files fnmatchFn (l1 ++ l2) excludes) := by
  have h1 : iter_files fnmatchFn (l1 ++ e :: l2) excludes =
      iter_files fnmatchFn (l1 ++ l2) excludes := by
    simp only [iter_files, List.filterMap_append]
    congr 1
    rw [List.filterMap_cons]
    cases hd : e.isDir
    · simp [hd, hex]
    · simp [hd]
  exact ⟨h1, by rw [h1]⟩

/-- Witness for C6 at a concrete input: an entry matched by a pattern
leaves the scan of the remaining entries unchanged. -/
theorem claim6_witness :
    iter_files (fun r p => r = p) ([] ++ ⟨"/r/t.log", "t.log", false, 1, 1⟩ ::
        [⟨"/r/a", "a", false, 2, 3⟩]) ["t.log"] =
      iter_files (fun r p => r = p) ([] ++ [⟨"/r/a", "a", false, 2, 3⟩])
        ["t.log"] :=
  (claim6_excluded_is_invisible (fun r p => r = p) []
    [⟨"/r/a", "a", false, 2, 3⟩] ⟨"/r/t.log", "t.log", false, 1, 1⟩ ["t.log"]
    (by decide) ⟨fun _ _ => .error ⟨"X"⟩, fun _ _ => []⟩ "b" "p" .sizeMtime
    false false).1

lemma syncFiles_initState_actions (client : S3Client) (bucket pfx : String)
    (strategy : Strategy) (dryRun : Bool) (files : List FileItem) :
    ∀ a ∈ (outState (syncFiles client bucket pfx strategy dryRun initState
        files)).actions,
      ∃ k l d, a = ActionRecord.upload bucket k l d ∧
        k ∈ (outState (syncFiles client bucket pfx strategy dryRun initState
          files)).localKeys := by
  intro a ha
  rcases (syncFiles_spec client bucket pfx strategy dryRun files
    initState).2.1 a ha with h | h
  · simp [initState] at h
  · exact h

lemma mem_iter_files {fnmatchFn : String → String → Bool}
    {entries : List RawEntry} {excludes : List String} {f : FileItem}
    (h : f ∈ iter_files fnmatchFn entries excludes) :
    ∃ p ∈ entries, p.isDir = false ∧
      is_excluded fnmatchFn p.rel excludes = false ∧ f.rel = p.rel := by
  unfold iter_files at h
  rcases List.mem_filterMap.mp h with ⟨p, hp, hf⟩
  by_cases hd : p.isDir = true
  · simp [hd] at hf
  · by_cases he : is_excluded fnmatchFn p.rel excludes = true
    · simp [hd, he] at hf
    · refine ⟨p, hp, by simpa using hd, by simpa using he, ?_⟩
      rw [if_neg hd, if_neg he] at hf
      injection hf with hf
      rw [← hf]

/-- Claim C3: in every run, successful or aborted, with any strategy and
any dry-run/delete flags, every key planned for Upload is in the
locally-present key set, every Delete key is outside it, and hence no key
is the target of both an Upload and a Delete in the same run. -/
theorem claim3_no_upload_delete_overlap :
    (∀ (client : S3Client) (bucket pfx : String) (strategy : Strategy)
        (dryRun deleteFlag : Bool) (files : List FileItem) (r : RunResult),
      syncRun client bucket pfx strategy dryRun deleteFlag files = .ok r →
      (∀ b k l d, ActionRecord.upload b k l d ∈ r.actions → k ∈ r.localKeys) ∧
      (∀ b k d, ActionRecord.delete b k d ∈ r.actions → k ∉ r.localKeys) ∧
      (∀ b k l d b' d', ActionRecord.upload b k l d ∈ r.actions →
        ActionRecord.delete b' k d' ∈ r.actions → False)) ∧
    (∀ (client : S3Client) (bucket pfx : String) (strategy : Strategy)
        (dryRun deleteFlag : Bool) (files : List FileItem)
        (es : ClientError × LoopState),
      syncRun client bucket pfx strategy dryRun deleteFlag files = .error es →
      ∀ b k d, ActionRecord.delete b k d ∉ es.2.actions) := by
  constructor
  · intro client bucket pfx strategy dryRun deleteFlag files r h
    cases deleteFlag with
    | false =>
        obtain ⟨s, hsf, rfl⟩ := syncRun_ok_nodelete h
        have hact := syncFiles_initState_actions client bucket pfx strategy
          dryRun files
        rw [hsf] at hact
        simp only [outState] at hact
        have hup : ∀ b k l d, ActionRecord.upload b k l d ∈ s.actions →
            k ∈ s.localKeys := by
          intro b k l d hm
          obtain ⟨k', l', d', heq, hk'⟩ := hact _ hm
          injection heq with h1 h2 h3 h4
          subst h2
          exact hk'
        have hdel : ∀ b k d, ActionRecord.delete b k d ∈ s.actions →
            k ∉ s.localKeys := by
          intro b k d hm
          obtain ⟨k', l', d', heq, hk'⟩ := hact _ hm
          simp at heq
        exact ⟨hup, hdel,
          fun b k l d b' d' hu hd => (hdel b' k d' hd) (hup b k l d hu)⟩
    | true =>
        obtain ⟨s, hsf, rfl⟩ := syncRun_ok_delete h
        have hact := syncFiles_initState_actions client bucket pfx strategy
          dryRun files
        rw [hsf] at hact
        simp only [outState] at hact
        have hdp1 : (deletePhase (client.listKeys bucket
              (if pfx ≠ "" then pfx ++ "/" else "")) bucket dryRun
              s.localKeys).1 =
            ((client.listKeys bucket (if pfx ≠ "" then pfx ++ "/" else
              "")).filter fun k => decide (k ∉ s.localKeys)).map
              (fun k => ActionRecord.delete bucket k dryRun) := by
          rw [deletePhase_eq]
        have hup : ∀ b k l d, ActionRecord.upload b k l d ∈
            s.actions ++ (deletePhase (client.listKeys bucket
              (if pfx ≠ "" then pfx ++ "/" else "")) bucket dryRun
              s.localKeys).1 → k ∈ s.localKeys := by
          intro b k l d hm
          rcases List.mem_append.mp hm with hm | hm
          · obtain ⟨k', l', d', heq, hk'⟩ := hact _ hm
            injection heq with h1 h2 h3 h4
            subst h2
            exact hk'
          · rw [hdp1] at hm
            rcases List.mem_map.mp hm with ⟨k0, hk0, heq⟩
            simp at heq
        have hdel : ∀ b k d, ActionRecord.delete b k d ∈
            s.actions ++ (deletePhase (client.listKeys bucket
              (if pfx ≠ "" then pfx ++ "/" else "")) bucket dryRun
              s.localKeys).1 → k ∉ s.localKeys := by
          intro b k d hm
          rcases List.mem_append.mp hm with hm | hm
          · obtain ⟨k', l', d', heq, hk'⟩ := hact _ hm
            simp at heq
          · rw [hdp1] at hm
            rcases List.mem_map.mp hm with ⟨k0, hk0, heq⟩
            have heq' : ActionRecord.delete bucket k0 dryRun =
                ActionRecord.delete b k d := heq
            injection heq' with h1 h2 h3
            subst h2
            have := List.of_mem_filter hk0
            simpa using this
        exact ⟨hup, hdel,
          fun b k l d b' d' hu hd => (hdel b' k d' hd) (hup b k l d hu)⟩
  · intro client bucket pfx strategy dryRun deleteFlag files es h b k d hm
    have hsf := syncRun_error_inv h
    have hact := syncFiles_initState_actions client bucket pfx strategy
      dryRun files
    rw [hsf] at hact
    simp only [outState] at hact
    obtain ⟨k', l', d', heq, hk'⟩ := hact _ hm
    simp at heq

/-- Witness for C3 at a concrete input: in a run that uploads key q/f and
deletes remote-only key q/old, the deleted key is outside the
locally-present set. -/
theorem claim3_witness : ("q/old" : String) ∉ (["q/f"] : List String) :=
  (claim3_no_upload_delete_overlap.1
    ⟨fun _ _ => .ok ⟨some "e", some 5, none⟩, fun _ _ => ["q/old", "q/f"]⟩
    "b" "q" .sizeMtime true true [⟨"/a/f", "f", 5, 2⟩]
    ⟨[ActionRecord.upload "b" "q/f" "/a/f" true,
      ActionRecord.delete "b" "q/old" true], [], 1, 0, 1, ["q/f"]⟩
    rfl).2.1 "b" "q/old" true (by decide)

/-- Claim C4: with delete enabled, the deletion phase consults exactly the
listing of the prefix with a trailing slash appended when non-empty (the
empty prefix lists the whole bucket); assuming the listing is
duplicate-free and prefix-respecting (the store's contract), every listed
key outside the locally-present set yields exactly one Delete action, and
every Delete action's key is a listed key outside that set, hence under
the slash-terminated prefix. -/
theorem claim4_delete_phase (client : S3Client) (bucket pfx : String)
    (strategy : Strategy) (dryRun : Bool) (files : List FileItem)
    (r : RunResult)
    (h : syncRun client bucket pfx strategy dryRun true files = .ok r)
    (hnd : (client.listKeys bucket
      (if pfx ≠ "" then pfx ++ "/" else "")).Nodup)
    (hpref : ∀ k ∈ client.listKeys bucket
        (if pfx ≠ "" then pfx ++ "/" else ""),
      (if pfx ≠ "" then pfx ++ "/" else "").data.isPrefixOf k.data = true) :
    (∀ k, k ∈ client.listKeys bucket (if pfx ≠ "" then pfx ++ "/" else "") →
      k ∉ r.localKeys →
      r.actions.count (ActionRecord.delete bucket k dryRun) = 1) ∧
    (∀ (b' k : String) (d : Bool), ActionRecord.delete b' k d ∈ r.actions →
      b' = bucket ∧ d = dryRun ∧
      k ∈ client.listKeys bucket (if pfx ≠ "" then pfx ++ "/" else "") ∧
      k ∉ r.localKeys ∧
      (if pfx ≠ "" then pfx ++ "/" else "").data.isPrefixOf k.data = true) := by
  obtain ⟨s, hsf, rfl⟩ := syncRun_ok_delete h
  have hact := syncFiles_initState_actions client bucket pfx strategy
    dryRun files
  rw [hsf] at hact
  simp only [outState] at hact
  have hdp1 : (deletePhase (client.listKeys bucket
        (if pfx ≠ "" then pfx ++ "/" else "")) bucket dryRun
        s.localKeys).1 =
      ((client.listKeys bucket (if pfx ≠ "" then pfx ++ "/" else
        "")).filter fun k => decide (k ∉ s.localKeys)).map
        (fun k => ActionRecord.delete bucket k dryRun) := by
    rw [deletePhase_eq]
  constructor
  · intro k hkks hkl
    have hkl' : k ∉ s.localKeys := by simpa using hkl
    show (s.actions ++ (deletePhase (client.listKeys bucket
        (if pfx ≠ "" then pfx ++ "/" else "")) bucket dryRun
        s.localKeys).1).count (ActionRecord.delete bucket k dryRun) = 1
    rw [List.count_append]
    have hzero : s.actions.count (ActionRecord.delete bucket k dryRun) = 0 := by
      rw [List.count_eq_zero]
      intro hm
      obtain ⟨k', l', d', heq, _⟩ := hact _ hm
      simp at heq
    have hinj : Function.Injective
        (fun k => ActionRecord.delete bucket k dryRun) := by
      intro a b hab
      have hab' : ActionRecord.delete bucket a dryRun =
          ActionRecord.delete bucket b dryRun := hab
      simpa using hab'
    rw [hzero, hdp1, List.count_map_of_injective _ _ hinj]
    have hmemf : k ∈ (client.listKeys bucket
        (if pfx ≠ "" then pfx ++ "/" else "")).filter
        (fun k => decide (k ∉ s.localKeys)) :=
      List.mem_filter.mpr ⟨hkks, by simpa using hkl'⟩
    rw [List.count_eq_one_of_mem (hnd.filter _) hmemf]
  · intro b' k d hm
    rcases List.mem_append.mp hm with hm | hm
    · obtain ⟨k', l', d', heq, _⟩ := hact _ hm
      simp at heq
    · rw [hdp1] at hm
      rcases List.mem_map.mp hm with ⟨k0, hk0, heq⟩
      have heq' : ActionRecord.delete bucket k0 dryRun =
          ActionRecord.delete b' k d := heq
      have hcomp : bucket = b' ∧ k0 = k ∧ dryRun = d := by simpa using heq'
      obtain ⟨h1, h2, h3⟩ := hcomp
      subst h1
      subst h2
      subst h3
      have hks0 := List.mem_of_mem_filter hk0
      have hdec := List.of_mem_filter hk0
      exact ⟨rfl, rfl, hks0, by simpa using hdec, hpref _ hks0⟩

/-- Witness for C4 at a concrete input: remote-only key q/old under prefix
q/ yields exactly one Delete action. -/
theorem claim4_witness :
    List.count (ActionRecord.delete "b" "q/old" true)
      [ActionRecord.upload "b" "q/f" "/a/f" true,
       ActionRecord.delete "b" "q/old" true] = 1 :=
  (claim4_delete_phase
    ⟨fun _ _ => .ok ⟨some "e", some 5, none⟩, fun _ _ => ["q/old", "q/f"]⟩
    "b" "q" .sizeMtime true [⟨"/a/f", "f", 5, 2⟩]
    ⟨[ActionRecord.upload "b" "q/f" "/a/f" true,
      ActionRecord.delete "b" "q/old" true], [], 1, 0, 1, ["q/f"]⟩
    rfl (by decide) (by decide)).1 "q/old" (by decide) (by decide)

/-- Claim C10: with delete enabled, the remote counterpart of an excluded
local file is treated as remote-only: since the excluded file never enters
the locally-present key set (and no non-excluded file shares its relative
path), its listed key yields a Delete action. -/
theorem claim10_excluded_remote_deleted (fnmatchFn : String → String → Bool)
    (entries : List RawEntry) (excludes : List String) (client : S3Client)
    (bucket pfx : String) (strategy : Strategy) (dryRun : Bool)
    (e : RawEntry) (r : RunResult)
    (hex : is_excluded fnmatchFn e.rel excludes = true)
    (huniq : ∀ p ∈ entries, p.isDir = false →
      is_excluded fnmatchFn p.rel excludes = false → p.rel ≠ e.rel)
    (hrun : syncRun client bucket pfx strategy dryRun true
      (iter_files fnmatchFn entries excludes) = .ok r)
    (hlist : join_s3_key pfx e.rel ∈
      client.listKeys bucket (if pfx ≠ "" then pfx ++ "/" else "")) :
    join_s3_key pfx e.rel ∉ r.localKeys ∧
    ActionRecord.delete bucket (join_s3_key pfx e.rel) dryRun ∈ r.actions := by
  obtain ⟨s, hsf, rfl⟩ := syncRun_ok_delete hrun
  have hkeys := syncFiles_ok_localKeys client bucket pfx strategy dryRun
    (iter_files fnmatchFn entries excludes) initState s hsf
  have hnot : join_s3_key pfx e.rel ∉ s.localKeys := by
    rw [hkeys]
    rintro (hmem | ⟨f, hf, hfk⟩)
    · simp [initState] at hmem
    · obtain ⟨p, hp, hpd, hpe, hrel⟩ := mem_iter_files hf
      have hfe : f.rel = e.rel := join_s3_key_inj pfx hfk
      exact huniq p hp hpd hpe (by rw [← hrel]; exact hfe)
  have hdp1 : (deletePhase (client.listKeys bucket
        (if pfx ≠ "" then pfx ++ "/" else "")) bucket dryRun
        s.localKeys).1 =
      ((client.listKeys bucket (if pfx ≠ "" then pfx ++ "/" else
        "")).filter fun k => decide (k ∉ s.localKeys)).map
        (fun k => ActionRecord.delete bucket k dryRun) := by
    rw [deletePhase_eq]
  refine ⟨hnot, ?_⟩
  show ActionRecord.delete bucket (join_s3_key pfx e.rel) dryRun ∈
    s.actions ++ (deletePhase (client.listKeys bucket
      (if pfx ≠ "" then pfx ++ "/" else "")) bucket dryRun s.localKeys).1
  apply List.mem_append_right
  rw [hdp1]
  exact List.mem_map.mpr ⟨join_s3_key pfx e.rel,
    List.mem_filter.mpr ⟨hlist, by simpa using hnot⟩, rfl⟩

/-- Witness for C10 at a concrete input: excluded local file x.log has a
remote counterpart q/x.log, which is planned for deletion. -/
theorem claim10_witness :
    ("q/x.log" : String) ∉ (["q/f"] : List String) ∧
    ActionRecord.delete "b" "q/x.log" true ∈
      [ActionRecord.upload "b" "q/f" "/a/f" true,
       ActionRecord.delete "b" "q/x.log" true] :=
  claim10_excluded_remote_deleted (fun r p => r = p)
    [⟨"/a/f", "f", false, 5, 2⟩, ⟨"/a/x.log", "x.log", false, 1, 1⟩]
    ["x.log"]
    ⟨fun _ _ => .ok ⟨some "e", some 5, none⟩,
     fun _ _ => ["q/x.log", "q/f"]⟩
    "b" "q" .sizeMtime true ⟨"/a/x.log", "x.log", false, 1, 1⟩
    ⟨[ActionRecord.upload "b" "q/f" "/a/f" true,
      ActionRecord.delete "b" "q/x.log" true], [], 1, 0, 1, ["q/f"]⟩
    (by decide) (by decide) rfl (by decide)

end S3Backup
